import Mathlib

/-!
Formal model of the SysButler transfer core (`src/Jobs/TransferManager.h`,
`src/Jobs/TransferManager.cpp`).

The development has two layers.

1. Function-level embeddings of the pure/sequential pieces of the worker:
   `GetUniquePath` (lines 35-47), the destination re-resolution performed when a
   job is claimed (lines 191-198), `GetDirectorySize` (lines 16-26) and the
   Strategy C recursive tree walk together with the shared success/failure
   epilogue (lines 225-275).  Filesystem primitives (existence checks,
   `CopyFileExW`, directory iteration, ...) are external collaborators; their
   outcomes are parameters (oracles) of the embedding, and the directory
   iterator's output is modelled as the list of entries it yields (relative
   path plus kind), parents before children, exactly as
   `std::filesystem::recursive_directory_iterator` produces it.

2. A labelled transition system over the whole `TransferManager` state
   (queue of jobs, `m_running`/`m_paused` flags, and the worker thread's
   control point), interleaving the producer operations (`QueueJob`,
   `StartQueue`, `PauseQueue`, `ResumeQueue`, `RemoveJob`) with the worker
   loop's steps at the granularity of one guarded source statement block per
   step (one locked queue scan, one strategy primitive, one tree-walk
   iteration including its pause poll, one terminal epilogue, ...).

Numbers are `Nat`/`ℚ`; the C++ `float` progress field is modelled as an exact
rational, and file sizes as `Nat`.
-/

namespace SysButler

/-! ## Job model (`TransferManager.h`, lines 11-32) -/

/-- `JobType` from `TransferManager.h`. -/
inductive JobType where
  | Copy
  | Move
  deriving DecidableEq, Repr

/-- `JobStatus` from `TransferManager.h`. -/
inductive JobStatus where
  | Pending
  | Calculating
  | Copying
  | Paused
  | Completed
  | Failed
  deriving DecidableEq, Repr

/-! ## Paths for `GetUniquePath` and destination resolution

`GetUniquePath` (lines 35-47) decomposes its target into parent folder, stem
and extension and probes `stem (1)ext`, `stem (2)ext`, ... .  We model a file
name either as a plain stem/extension pair or as a counter-suffixed name:
`FileName.counted s n e` denotes the concrete string `s ++ " (" ++ toString n
++ ")" ++ e`.  Since that string rendering is injective in `(s, n, e)`,
representing it by a constructor (whose injectivity Lean provides) is a
faithful model of name identity; a pre-existing file whose name happens to
look like a counter suffix is represented by the `counted` constructor. -/

/-- A file name, split the way `std::filesystem::path::stem()` /
`::extension()` split it (extension = final dot component). -/
inductive FileName where
  | plain (stem ext : String)
  | counted (stem : String) (n : Nat) (ext : String)
  deriving DecidableEq, Repr

/-- The concrete string a `FileName` denotes. -/
def FileName.render : FileName → String
  | .plain s e => s ++ e
  | .counted s n e => s ++ " (" ++ Nat.repr n ++ ")" ++ e

/-- `stem()` and `extension()` of a file name (lines 38-39). -/
def FileName.stemExt : FileName → String × String
  | .plain s e => (s, e)
  | .counted s n e => (s ++ " (" ++ Nat.repr n ++ ")", e)

/-- An absolute path: parent folder components plus a final file name. -/
structure FPath where
  folder : List String
  name : FileName
  deriving DecidableEq, Repr

/-- The candidate path `folder / (stem ++ " (" ++ toString n ++ ")" ++ ext)`
built by line 42 of `GetUniquePath`. -/
def candidate (folder : List String) (stem ext : String) (n : Nat) : FPath :=
  ⟨folder, .counted stem n ext⟩

/-- The `while (exists(target))` loop of `GetUniquePath` (lines 41-45),
starting at a given counter value.  The existing filesystem is the (finite)
list `fs` of paths that exist; `fuel` bounds the recursion and is chosen large
enough (`fs.length + 1`) that, by pigeonhole, the loop always terminates
before exhausting it (`uniqueLoop_spec` plus `exists_free_candidate`). -/
def uniqueLoop (fs : List FPath) (folder : List String) (stem ext : String) :
    Nat → Nat → FPath
  | counter, 0 => candidate folder stem ext counter
  | counter, fuel + 1 =>
    if candidate folder stem ext counter ∈ fs then
      uniqueLoop fs folder stem ext (counter + 1) fuel
    else candidate folder stem ext counter

/-- `GetUniquePath` (`TransferManager.cpp` lines 35-47): if the target does
not exist it is returned unchanged (line 36); otherwise the counter loop runs
starting from 1 on the stem/extension decomposition of the original target
(lines 37-45). -/
def GetUniquePath (fs : List FPath) (target : FPath) : FPath :=
  if target ∈ fs then
    uniqueLoop fs target.folder target.name.stemExt.1 target.name.stemExt.2 1
      (fs.length + 1)
  else target

theorem candidate_inj {folder : List String} {stem ext : String} {a b : Nat}
    (h : candidate folder stem ext a = candidate folder stem ext b) : a = b := by
  simpa [candidate, FPath.mk.injEq, FileName.counted.injEq] using h

/-- Pigeonhole: among any `fs.length + 1` consecutive counter values, some
candidate path is not in `fs`. -/
theorem exists_free_candidate (fs : List FPath) (folder : List String)
    (stem ext : String) (c : Nat) :
    ∃ k, k ≤ fs.length ∧ candidate folder stem ext (c + k) ∉ fs := by
  by_contra h
  push_neg at h
  have hsub : ((List.range (fs.length + 1)).map
      (fun k => candidate folder stem ext (c + k))) ⊆ fs := by
    intro x hx
    rcases List.mem_map.mp hx with ⟨k, hk, rfl⟩
    exact h k (Nat.lt_succ_iff.mp (List.mem_range.mp hk))
  have hnd : ((List.range (fs.length + 1)).map
      (fun k => candidate folder stem ext (c + k))).Nodup := by
    refine List.Nodup.map ?_ (List.nodup_range _)
    intro a b hab
    have := candidate_inj hab
    omega
  have hle := (hnd.subperm hsub).length_le
  simp [List.length_map, List.length_range] at hle

/-- Correctness of the counter loop: given enough fuel, it returns the
candidate with the least counter `n ≥ c` that does not exist, and every
smaller candidate (from `c` on) exists. -/
theorem uniqueLoop_spec (fs : List FPath) (folder : List String)
    (stem ext : String) :
    ∀ fuel c, (∃ k, k < fuel ∧ candidate folder stem ext (c + k) ∉ fs) →
    ∃ n, c ≤ n ∧ uniqueLoop fs folder stem ext c fuel = candidate folder stem ext n ∧
      candidate folder stem ext n ∉ fs ∧
      ∀ m, c ≤ m → m < n → candidate folder stem ext m ∈ fs := by
  intro fuel
  induction fuel with
  | zero =>
    intro c hex
    rcases hex with ⟨k, hk, _⟩
    omega
  | succ fuel ih =>
    intro c hex
    rcases hex with ⟨k, hk, hfree⟩
    by_cases hc : candidate folder stem ext c ∈ fs
    · have hk0 : k ≠ 0 := by
        intro h0
        rw [h0, Nat.add_zero] at hfree
        exact hfree hc
      have hex' : ∃ k', k' < fuel ∧ candidate folder stem ext (c + 1 + k') ∉ fs := by
        refine ⟨k - 1, by omega, ?_⟩
        have : c + 1 + (k - 1) = c + k := by omega
        rw [this]
        exact hfree
      rcases ih (c + 1) hex' with ⟨n, hcn, heq, hnot, hmin⟩
      refine ⟨n, by omega, ?_, hnot, ?_⟩
      · rw [uniqueLoop, if_pos hc]
        exact heq
      · intro m hm1 hm2
        by_cases hmc : m = c
        · rw [hmc]; exact hc
        · exact hmin m (by omega) hm2
    · refine ⟨c, Nat.le_refl c, ?_, hc, ?_⟩
      · rw [uniqueLoop, if_neg hc]
      · intro m h1 h2
        omega

/-- C5: for every path p, GetUniquePath returns p unchanged if p does not
exist; otherwise it returns the path obtained by inserting " (n)" between p's
stem and extension in the same parent directory, where n is the smallest
positive integer for which that path does not exist, and the returned path
does not exist at call time. -/
theorem GetUniquePath_spec (fs : List FPath) (p : FPath) :
    (p ∉ fs → GetUniquePath fs p = p) ∧
    (p ∈ fs → ∃ n, 1 ≤ n ∧
      GetUniquePath fs p = candidate p.folder p.name.stemExt.1 p.name.stemExt.2 n ∧
      GetUniquePath fs p ∉ fs ∧
      ∀ m, 1 ≤ m → m < n →
        candidate p.folder p.name.stemExt.1 p.name.stemExt.2 m ∈ fs) := by
  constructor
  · intro hp
    rw [GetUniquePath, if_neg hp]
  · intro hp
    rcases exists_free_candidate fs p.folder p.name.stemExt.1 p.name.stemExt.2 1 with
      ⟨k, hk, hfree⟩
    rcases uniqueLoop_spec fs p.folder p.name.stemExt.1 p.name.stemExt.2
      (fs.length + 1) 1 ⟨k, by omega, hfree⟩ with ⟨n, h1, heq, hnot, hmin⟩
    have hgu : GetUniquePath fs p =
        candidate p.folder p.name.stemExt.1 p.name.stemExt.2 n := by
      rw [GetUniquePath, if_pos hp]
      exact heq
    refine ⟨n, h1, hgu, ?_, fun m hm1 hm2 => hmin m hm1 hm2⟩
    rw [hgu]
    exact hnot

/-- An existing filesystem for the C5 witness: `C:/report.pdf` and
`C:/report (1).pdf` both exist. -/
def fsW5 : List FPath :=
  [⟨["C:"], .plain "report" ".pdf"⟩, ⟨["C:"], .counted "report" 1 ".pdf"⟩]

/-- The colliding target for the C5 witness. -/
def pW5 : FPath := ⟨["C:"], .plain "report" ".pdf"⟩

theorem GetUniquePath_spec_witness :
    pW5 ∈ fsW5 ∧ ∃ n, 1 ≤ n ∧
      GetUniquePath fsW5 pW5 = candidate pW5.folder pW5.name.stemExt.1 pW5.name.stemExt.2 n ∧
      GetUniquePath fsW5 pW5 ∉ fsW5 ∧
      ∀ m, 1 ≤ m → m < n →
        candidate pW5.folder pW5.name.stemExt.1 pW5.name.stemExt.2 m ∈ fsW5 :=
  ⟨by decide, (GetUniquePath_spec fsW5 pW5).2 (by decide)⟩

/-! ## Destination re-resolution at claim time (lines 191-198) -/

/-- A filesystem as seen by `is_directory` / `exists`: the lists of existing
directory paths and existing regular-file paths. -/
structure Fsys where
  dirs : List FPath
  files : List FPath
  deriving DecidableEq, Repr

/-- `std::filesystem::is_directory`. -/
def Fsys.isDir (fs : Fsys) (p : FPath) : Bool := decide (p ∈ fs.dirs)

/-- `std::filesystem::exists`. -/
def Fsys.existsP (fs : Fsys) (p : FPath) : Bool :=
  decide (p ∈ fs.dirs ∨ p ∈ fs.files)

/-- Every existing path, for `GetUniquePath`'s existence probes. -/
def Fsys.allPaths (fs : Fsys) : List FPath := fs.dirs ++ fs.files

/-- `finalDest /= source.filename()` (line 194): the old final name becomes a
folder component and the source's filename is appended. -/
def joinChild (d : FPath) (n : FileName) : FPath :=
  ⟨d.folder ++ [d.name.render], n⟩

/-- The merge conditional of lines 192-196: the source filename is joined
onto the stored destination when (the destination is a directory OR the
source is a directory) AND the destination exists. -/
def mergeStep (fs : Fsys) (source destStored : FPath) : FPath :=
  if (fs.isDir destStored || fs.isDir source) && fs.existsP destStored then
    joinChild destStored source.name
  else destStored

/-- Lines 191-198: the final destination recomputed when the worker claims a
job — the merge conditional followed by `GetUniquePath`. -/
def resolveFinalDest (fs : Fsys) (source destStored : FPath) : FPath :=
  GetUniquePath fs.allPaths (mergeStep fs source destStored)

/-- The Path Resolver merge rule as the specification words it: the filename
component of the source is joined onto the destination iff the destination is
an existing directory; otherwise the destination is left unchanged.  This
definition follows the spec's words (not the code) and is compared against
`mergeStep`, which is translated from the code. -/
def mergeSpec (fs : Fsys) (source destStored : FPath) : FPath :=
  if fs.isDir destStored then joinChild destStored source.name else destStored

/-- C6 counterexample filesystem: `D:/photos` is an existing directory (the
source) and `C:/backup` is an existing regular FILE (the stored
destination). -/
def fsC6 : Fsys :=
  { dirs := [⟨["D:"], .plain "photos" ""⟩], files := [⟨["C:"], .plain "backup" ""⟩] }

/-- The C6 source path, a directory. -/
def srcC6 : FPath := ⟨["D:"], .plain "photos" ""⟩

/-- The C6 stored destination path, an existing regular file. -/
def dstC6 : FPath := ⟨["C:"], .plain "backup" ""⟩

/-- C6 counterexample: when the stored destination is an existing regular
file and the source is a directory, the code joins the source filename onto
the destination (line 192 also tests `is_directory(source)`, line 193 only
`exists`), while the claim says the destination is left unchanged because it
is not an existing directory.  The two resolutions differ. -/
theorem resolveFinalDest_spec_cex :
    resolveFinalDest fsC6 srcC6 dstC6 ≠
      GetUniquePath fsC6.allPaths (mergeSpec fsC6 srcC6 dstC6) := by
  decide

/-- C6 (amended): when the worker claims a job, the filename component of the
source is joined onto the stored destination if and only if the destination
exists and (the destination is a directory or the source is a directory);
otherwise the destination is left unchanged; the result is then passed
through `GetUniquePath`. -/
theorem resolveFinalDest_amended (fs : Fsys) (src dst : FPath) :
    (((fs.isDir dst || fs.isDir src) && fs.existsP dst) = true →
      resolveFinalDest fs src dst = GetUniquePath fs.allPaths (joinChild dst src.name)) ∧
    (((fs.isDir dst || fs.isDir src) && fs.existsP dst) = false →
      resolveFinalDest fs src dst = GetUniquePath fs.allPaths dst) := by
  constructor <;> intro h <;> simp [resolveFinalDest, mergeStep, h]

theorem resolveFinalDest_amended_witness :
    ((fsC6.isDir dstC6 || fsC6.isDir srcC6) && fsC6.existsP dstC6) = true ∧
    resolveFinalDest fsC6 srcC6 dstC6 =
      GetUniquePath fsC6.allPaths (joinChild dstC6 srcC6.name) :=
  ⟨by decide, (resolveFinalDest_amended fsC6 srcC6 dstC6).1 (by decide)⟩

/-! ## Directory entries, size scan and the Strategy C walk (lines 16-26 and
225-275)

`std::filesystem::recursive_directory_iterator` is an external collaborator;
its output is modelled as the list of entries it yields for the source tree
(relative path and kind, parents before children).  `GetDirectorySize` and
the walk of lines 235-251 iterate this same list. -/

/-- The kind of a directory entry: a subdirectory or a regular file with its
byte size. -/
inductive EntryKind where
  | dirE
  | fileE (size : Nat)
  deriving DecidableEq, Repr

/-- One entry yielded by the recursive iterator: its path relative to the
iteration root (line 239) and its kind. -/
structure Entry where
  rel : List String
  kind : EntryKind
  deriving DecidableEq, Repr

/-- `entry.file_size()` for a regular file; 0 for a directory (directories
contribute nothing to the sums below, matching the `is_regular_file()` test
at line 20). -/
def entrySize (e : Entry) : Nat :=
  match e.kind with
  | .dirE => 0
  | .fileE s => s

/-- Total size of the regular files among a list of entries. -/
def sumSizes : List Entry → Nat
  | [] => 0
  | e :: es => entrySize e + sumSizes es

/-- `GetDirectorySize` (lines 16-26): sums regular-file sizes over the
recursive iteration; any exception is caught and swallowed (line 24), so an
error partway leaves the partial sum of the entries already visited.
`abortAt = some k` models an exception thrown after `k` entries were
processed; `none` models an error-free scan. -/
def GetDirectorySize (es : List Entry) (abortAt : Option Nat) : Nat :=
  match abortAt with
  | none => sumSizes es
  | some k => sumSizes (es.take k)

/-- The per-job mutable fields of `FileJob` that the worker writes
(`status`, `progress`, `errorMessage`). -/
structure JobRec where
  status : JobStatus
  progress : ℚ
  errorMessage : String
  deriving DecidableEq, Repr

/-- A freshly enqueued job record (`FileJob` field initializers plus line
106): status Pending, progress 0, no error message. -/
def freshJob : JobRec := ⟨.Pending, 0, ""⟩

/-- Accumulated state of the Strategy C walk: the job record, the running
byte counter (line 230), and the directories/files created so far under the
final destination, by relative path (lines 243 and 246). -/
structure WalkAcc where
  job : JobRec
  bytesCopied : Nat
  destDirs : List (List String)
  destFiles : List (List String × Nat)
  deriving DecidableEq, Repr

/-- One iteration of the Strategy C walk (lines 239-250), after the pause
poll has passed: a directory entry is mirrored with `create_directories`
(line 243); a file entry is copied by `CopyFileExW` (line 246) whose
success/failure is the collaborator outcome `copyOk e.rel`; on success the
byte counter advances and progress is recomputed as `bytesCopied/totalBytes`
when `totalBytes > 0` (lines 247-248); on failure the entry is silently
skipped (the `if` at line 246 has no else branch). -/
def walkStep (totalBytes : Nat) (copyOk : List String → Bool) (a : WalkAcc)
    (e : Entry) : WalkAcc :=
  match e.kind with
  | .dirE => { a with destDirs := a.destDirs ++ [e.rel] }
  | .fileE sz =>
    if copyOk e.rel then
      { a with
        bytesCopied := a.bytesCopied + sz
        destFiles := a.destFiles ++ [(e.rel, sz)]
        job := { a.job with progress :=
          if 0 < totalBytes then ((a.bytesCopied + sz : Nat) : ℚ) / (totalBytes : ℚ)
          else a.job.progress } }
    else a

/-- The walk loop of lines 235-251 over a list of entries. -/
def walkFold (totalBytes : Nat) (copyOk : List String → Bool) (a : WalkAcc)
    (es : List Entry) : WalkAcc :=
  es.foldl (walkStep totalBytes copyOk) a

/-- The shared terminal epilogue (lines 265-275): on success, status
Completed and progress 1.0; on failure, status Failed with, when no message
was recorded yet, one synthesized from `GetLastError()`. -/
def epilogue (success : Bool) (osError : Nat) (j : JobRec) : JobRec :=
  if success then { j with status := .Completed, progress := 1 }
  else
    { j with
      status := .Failed
      errorMessage :=
        if j.errorMessage = "" then "Win32 Error Code: " ++ Nat.repr osError
        else j.errorMessage }

/-- The collaborator outcomes for one Strategy C execution: the entries the
iterator yields for the source tree, the per-file `CopyFileExW` outcomes, an
optional scan abort (swallowed, line 24), an optional exception inside the
walk — thrown before processing entry `k`, with message `e.what()` (lines
259-261, also covering `create_directories` at line 233) — and an optional
exception from `remove_all` during the move cleanup (line 256). -/
structure Case3Env where
  entries : List Entry
  copyOk : List String → Bool
  scanAbortAt : Option Nat
  excAt : Option (Nat × String)
  cleanupExc : Option String

/-- The walk accumulator at entry to the loop: status has been set to Copying
(line 232), counters zero, nothing mirrored yet. -/
def walkAcc0 (j : JobRec) : WalkAcc := ⟨{ j with status := .Copying }, 0, [], []⟩

/-- Strategy C (lines 225-263) followed by the shared epilogue: the size scan
(line 229), the walk (lines 235-251), the move cleanup (lines 254-257), with
the catch block (lines 259-262) recording `e.what()` and failing the job. -/
def runCase3 (env : Case3Env) (ty : JobType) (osError : Nat) (j : JobRec) :
    WalkAcc :=
  let tb := GetDirectorySize env.entries env.scanAbortAt
  match env.excAt with
  | some km =>
    let a := walkFold tb env.copyOk (walkAcc0 j) (env.entries.take km.1)
    { a with job := epilogue false osError { a.job with errorMessage := km.2 } }
  | none =>
    let a := walkFold tb env.copyOk (walkAcc0 j) env.entries
    match ty, env.cleanupExc with
    | .Move, some msg =>
      { a with job := epilogue false osError { a.job with errorMessage := msg } }
    | _, _ => { a with job := epilogue true osError a.job }

/-- The collaborator outcomes for one whole claimed-job execution (lines
200-275): the source kind and volume tests (lines 200-204), the top-level
primitive outcome for CASE 1 / CASE 2 (lines 207 and 213-217), the CASE 3
environment, and the `GetLastError()` code. -/
structure ExecEnv where
  isFolder : Bool
  sameDrive : Bool
  primOk : Bool
  c3 : Case3Env
  osError : Nat

/-- The worker body for one claimed job (lines 186-275): status is set to
Copying (line 186), then CASE 1 (same-drive folder move, lines 206-209),
CASE 2 (single file, lines 211-222) or CASE 3 (recursive walk) runs,
followed by the shared epilogue. -/
def runClaimedJob (env : ExecEnv) (ty : JobType) (j0 : JobRec) : JobRec :=
  let j := { j0 with status := JobStatus.Copying }
  if env.isFolder && decide (ty = JobType.Move) && env.sameDrive then
    epilogue env.primOk env.osError
      (if env.primOk then { j with progress := 1 } else j)
  else if !env.isFolder then
    epilogue env.primOk env.osError j
  else
    (runCase3 env.c3 ty env.osError j0).job

/-- The failure condition the code actually implements: the job fails iff
its top-level primitive fails (CASE 1, CASE 2) or an exception is thrown
inside the CASE 3 try block (walk or move cleanup).  A per-file `CopyFileExW`
failure inside the walk is NOT a failure: line 246 has no else branch. -/
def execFails (env : ExecEnv) (ty : JobType) : Bool :=
  if env.isFolder && decide (ty = JobType.Move) && env.sameDrive then !env.primOk
  else if !env.isFolder then !env.primOk
  else
    match env.c3.excAt, ty, env.c3.cleanupExc with
    | some _, _, _ => true
    | none, .Move, some _ => true
    | _, _, _ => false

/-! ## Walk lemmas -/

theorem walkStep_errorMessage (tb : Nat) (copyOk : List String → Bool)
    (a : WalkAcc) (e : Entry) :
    (walkStep tb copyOk a e).job.errorMessage = a.job.errorMessage := by
  unfold walkStep
  cases e.kind with
  | dirE => rfl
  | fileE sz =>
    by_cases h : copyOk e.rel <;> simp [h]

theorem walkStep_status (tb : Nat) (copyOk : List String → Bool)
    (a : WalkAcc) (e : Entry) :
    (walkStep tb copyOk a e).job.status = a.job.status := by
  unfold walkStep
  cases e.kind with
  | dirE => rfl
  | fileE sz =>
    by_cases h : copyOk e.rel <;> simp [h]

theorem walkFold_errorMessage (tb : Nat) (copyOk : List String → Bool) :
    ∀ (es : List Entry) (a : WalkAcc),
    (walkFold tb copyOk a es).job.errorMessage = a.job.errorMessage := by
  intro es
  induction es with
  | nil => intro a; rfl
  | cons x xs ih =>
    intro a
    rw [walkFold, List.foldl_cons]
    rw [show List.foldl (walkStep tb copyOk) (walkStep tb copyOk a x) xs =
      walkFold tb copyOk (walkStep tb copyOk a x) xs from rfl]
    rw [ih, walkStep_errorMessage]

theorem walkFold_destFiles_mono (tb : Nat) (copyOk : List String → Bool) :
    ∀ (es : List Entry) (a : WalkAcc) (x : List String × Nat),
    x ∈ a.destFiles → x ∈ (walkFold tb copyOk a es).destFiles := by
  intro es
  induction es with
  | nil => intro a x hx; exact hx
  | cons e es ih =>
    intro a x hx
    rw [walkFold, List.foldl_cons]
    apply ih
    unfold walkStep
    cases e.kind with
    | dirE => exact hx
    | fileE sz =>
      by_cases h : copyOk e.rel <;> simp [h]
      · exact Or.inl hx
      · exact hx

theorem walkFold_destFiles_mem (tb : Nat) (copyOk : List String → Bool) :
    ∀ (es : List Entry) (a : WalkAcc),
    (∀ e ∈ es, ∀ sz, e.kind = .fileE sz → copyOk e.rel = true) →
    ∀ e ∈ es, ∀ sz, e.kind = .fileE sz →
      (e.rel, sz) ∈ (walkFold tb copyOk a es).destFiles := by
  intro es
  induction es with
  | nil => intro a _ e he; exact absurd he (List.not_mem_nil e)
  | cons x xs ih =>
    intro a hok e he sz hk
    rw [walkFold, List.foldl_cons]
    rcases List.mem_cons.mp he with he | he
    · subst he
      apply walkFold_destFiles_mono
      have hco := hok e (List.mem_cons_self e xs) sz hk
      unfold walkStep
      rw [hk]
      simp [hco]
    · exact ih (walkStep tb copyOk a x)
        (fun e' he' sz' hk' => hok e' (List.mem_cons_of_mem x he') sz' hk')
        e he sz hk

/-- Progress invariant carried through the walk: progress is non-negative,
and it is bounded by `bytesCopied/totalBytes` when the total is positive
(when the total is 0 it never moves from 0). -/
def WInv (tb : Nat) (a : WalkAcc) : Prop :=
  0 ≤ a.job.progress ∧
    (if 0 < tb then a.job.progress ≤ (a.bytesCopied : ℚ) / (tb : ℚ)
     else a.job.progress = 0)

theorem walkStep_winv (tb : Nat) (copyOk : List String → Bool) (a : WalkAcc)
    (e : Entry) (h : WInv tb a) :
    WInv tb (walkStep tb copyOk a e) ∧
      a.job.progress ≤ (walkStep tb copyOk a e).job.progress := by
  obtain ⟨h0, hb⟩ := h
  unfold walkStep
  cases e.kind with
  | dirE => exact ⟨⟨h0, hb⟩, le_refl _⟩
  | fileE sz =>
    by_cases hc : copyOk e.rel
    · simp only [hc, if_true]
      by_cases htb : 0 < tb
      · have htbq : (0 : ℚ) < (tb : ℚ) := by exact_mod_cast htb
        rw [if_pos htb] at hb
        have hmono : (a.bytesCopied : ℚ) / (tb : ℚ) ≤
            ((a.bytesCopied + sz : Nat) : ℚ) / (tb : ℚ) :=
          (div_le_div_iff_of_pos_right htbq).mpr
            (Nat.cast_le.mpr (Nat.le_add_right a.bytesCopied sz))
        refine ⟨⟨?_, ?_⟩, ?_⟩
        · simp only [if_pos htb]
          exact div_nonneg (Nat.cast_nonneg _) (le_of_lt htbq)
        · simp only [if_pos htb]
          exact le_refl _
        · simp only [if_pos htb]
          exact le_trans hb hmono
      · rw [if_neg htb] at hb
        refine ⟨⟨?_, ?_⟩, ?_⟩
        · simp only [if_neg htb]
          exact h0
        · simp only [if_neg htb]
          exact hb
        · simp only [if_neg htb]
          exact le_refl _
    · simp only [hc, if_false]
      exact ⟨⟨h0, hb⟩, le_refl _⟩

theorem walkFold_winv (tb : Nat) (copyOk : List String → Bool) :
    ∀ (es : List Entry) (a : WalkAcc), WInv tb a →
    WInv tb (walkFold tb copyOk a es) ∧
      a.job.progress ≤ (walkFold tb copyOk a es).job.progress := by
  intro es
  induction es with
  | nil => intro a h; exact ⟨h, le_refl _⟩
  | cons e es ih =>
    intro a h
    rw [walkFold, List.foldl_cons]
    obtain ⟨hstep, hmono⟩ := walkStep_winv tb copyOk a e h
    obtain ⟨hfold, hmono'⟩ := ih (walkStep tb copyOk a e) hstep
    exact ⟨hfold, le_trans hmono hmono'⟩

theorem walkFold_bytes_le (tb : Nat) (copyOk : List String → Bool) :
    ∀ (es : List Entry) (a : WalkAcc),
    (walkFold tb copyOk a es).bytesCopied ≤ a.bytesCopied + sumSizes es := by
  intro es
  induction es with
  | nil => intro a; simp [walkFold, sumSizes]
  | cons e es ih =>
    intro a
    rw [walkFold, List.foldl_cons]
    have h := ih (walkStep tb copyOk a e)
    rw [walkFold] at h
    have hstep : (walkStep tb copyOk a e).bytesCopied ≤ a.bytesCopied + entrySize e := by
      unfold walkStep entrySize
      cases e.kind with
      | dirE => simp
      | fileE sz =>
        by_cases hc : copyOk e.rel <;> simp [hc]
    calc (List.foldl (walkStep tb copyOk) (walkStep tb copyOk a e) es).bytesCopied
        ≤ (walkStep tb copyOk a e).bytesCopied + sumSizes es := h
      _ ≤ a.bytesCopied + entrySize e + sumSizes es := by omega
      _ = a.bytesCopied + sumSizes (e :: es) := by rw [sumSizes]; omega

theorem sumSizes_append (l1 l2 : List Entry) :
    sumSizes (l1 ++ l2) = sumSizes l1 + sumSizes l2 := by
  induction l1 with
  | nil => simp [sumSizes]
  | cons e es ih => simp [sumSizes, ih]; omega

theorem sumSizes_take_le (es : List Entry) (k : Nat) :
    sumSizes (es.take k) ≤ sumSizes es := by
  conv_rhs => rw [← List.take_append_drop k es]
  rw [sumSizes_append]
  omega

/-- The progress value after the walk has processed the first `k` entries of
the source (starting from a freshly claimed job). -/
def progressAt (tb : Nat) (copyOk : List String → Bool) (es : List Entry)
    (k : Nat) : ℚ :=
  (walkFold tb copyOk (walkAcc0 freshJob) (es.take k)).job.progress

theorem walkAcc0_winv (tb : Nat) : WInv tb (walkAcc0 freshJob) := by
  constructor
  · simp [walkAcc0, freshJob]
  · by_cases htb : 0 < tb <;> simp [walkAcc0, freshJob, htb]

/-- C7 (amended): for every job, progress is 0 before Copying starts,
non-negative at every point of the walk, monotonically non-decreasing as the
walk advances, equals 1.0 whenever a job terminates Completed (any strategy),
and lies in [0,1] at every point PROVIDED the pre-scan total was complete
(`totalBytes = sumSizes es`).  (When the scan was cut short by a swallowed
error, progress can exceed 1.0 — see the counterexample.) -/
theorem progress_contract (tb : Nat) (copyOk : List String → Bool)
    (es : List Entry) :
    freshJob.progress = 0 ∧
    (∀ k, 0 ≤ progressAt tb copyOk es k) ∧
    (∀ k l, k ≤ l → progressAt tb copyOk es k ≤ progressAt tb copyOk es l) ∧
    (tb = sumSizes es → ∀ k, progressAt tb copyOk es k ≤ 1) ∧
    (∀ (env : ExecEnv) (ty : JobType),
      (runClaimedJob env ty freshJob).status = .Completed →
      (runClaimedJob env ty freshJob).progress = 1) := by
  refine ⟨rfl, ?_, ?_, ?_, ?_⟩
  · intro k
    exact ((walkFold_winv tb copyOk (es.take k) (walkAcc0 freshJob)
      (walkAcc0_winv tb)).1).1
  · intro k l hkl
    unfold progressAt
    have hsplit : es.take l = es.take k ++ (es.drop k).take (l - k) := by
      conv_lhs => rw [show l = k + (l - k) by omega]
      rw [List.take_add]
    rw [hsplit]
    rw [show walkFold tb copyOk (walkAcc0 freshJob)
        (es.take k ++ (es.drop k).take (l - k)) =
      walkFold tb copyOk (walkFold tb copyOk (walkAcc0 freshJob) (es.take k))
        ((es.drop k).take (l - k)) from List.foldl_append ..]
    exact (walkFold_winv tb copyOk ((es.drop k).take (l - k)) _
      ((walkFold_winv tb copyOk (es.take k) _ (walkAcc0_winv tb)).1)).2
  · intro htb k
    have hw := (walkFold_winv tb copyOk (es.take k) (walkAcc0 freshJob)
      (walkAcc0_winv tb)).1
    obtain ⟨h0, hb⟩ := hw
    by_cases hpos : 0 < tb
    · rw [if_pos hpos] at hb
      have hbytes := walkFold_bytes_le tb copyOk (es.take k) (walkAcc0 freshJob)
      rw [show (walkAcc0 freshJob).bytesCopied = 0 from rfl] at hbytes
      have hst := sumSizes_take_le es k
      have hbytes' : (walkFold tb copyOk (walkAcc0 freshJob) (es.take k)).bytesCopied ≤ tb := by
        omega
      have htbq : (0 : ℚ) < (tb : ℚ) := by exact_mod_cast hpos
      refine le_trans hb ((div_le_one htbq).mpr (Nat.cast_le.mpr hbytes'))
    · rw [if_neg hpos] at hb
      unfold progressAt
      rw [hb]
      exact zero_le_one
  · intro env ty hc
    unfold runClaimedJob at hc ⊢
    by_cases h1 : env.isFolder && decide (ty = JobType.Move) && env.sameDrive
    · simp only [h1, if_true] at hc ⊢
      cases hok : env.primOk
      · simp [epilogue, hok] at hc
      · simp [epilogue, hok]
    · simp only [h1, if_false] at hc ⊢
      by_cases h2 : !env.isFolder
      · simp only [h2, if_true] at hc ⊢
        cases hok : env.primOk
        · simp [epilogue, hok] at hc
        · simp [epilogue, hok]
      · simp only [h2, if_false] at hc ⊢
        unfold runCase3 at hc ⊢
        cases hexc : env.c3.excAt with
        | some km => simp [epilogue, hexc] at hc
        | none =>
          cases ty with
          | Copy => simp [epilogue, hexc]
          | Move =>
            cases hcl : env.c3.cleanupExc with
            | some msg => simp [epilogue, hexc, hcl] at hc
            | none => simp [epilogue, hexc, hcl]

/-- Entries for the C7 witness: two files of sizes 3 and 7. -/
def esW7 : List Entry := [⟨["a"], .fileE 3⟩, ⟨["b"], .fileE 7⟩]

theorem progress_contract_witness :
    (1 : Nat) ≤ 2 ∧
    progressAt (sumSizes esW7) (fun _ => true) esW7 1 ≤
      progressAt (sumSizes esW7) (fun _ => true) esW7 2 :=
  ⟨by decide,
   (progress_contract (sumSizes esW7) (fun _ => true) esW7).2.2.1 1 2 (by decide)⟩

/-- Entries for the C7 counterexample: two files of size 5. -/
def esC7 : List Entry := [⟨["a"], .fileE 5⟩, ⟨["b"], .fileE 5⟩]

/-- C7 counterexample: the pre-scan is cut short after one entry (the
exception is caught and swallowed at line 24), undercounting totalBytes as 5;
the walk then copies both files successfully and progress reaches 10/5 = 2,
which exceeds 1.0 while the job is still Copying, contradicting "progress
lies in the interval [0.0, 1.0]". -/
theorem progress_contract_cex :
    1 < progressAt (GetDirectorySize esC7 (some 1)) (fun _ => true) esC7 2 := by
  have h : progressAt (GetDirectorySize esC7 (some 1)) (fun _ => true) esC7 2 = 2 := by
    simp [progressAt, GetDirectorySize, esC7, sumSizes, entrySize, walkFold,
      walkStep, walkAcc0, freshJob]
    norm_num
  rw [h]
  norm_num

/-- C1 (amended): every directory job executed by Strategy C in which no
exception is raised and every per-file copy primitive succeeds reaches
terminal status Completed; every regular file of the source tree is then
present at the mirrored relative path under the final destination with
identical byte length, and the job's progress equals 1.0. -/
theorem runCase3_completed_mirror (env : Case3Env) (ty : JobType)
    (osError : Nat) (hexc : env.excAt = none) (hclean : env.cleanupExc = none)
    (hok : ∀ e ∈ env.entries, ∀ sz, e.kind = .fileE sz → env.copyOk e.rel = true) :
    (runCase3 env ty osError freshJob).job.status = .Completed ∧
    (runCase3 env ty osError freshJob).job.progress = 1 ∧
    ∀ e ∈ env.entries, ∀ sz, e.kind = .fileE sz →
      (e.rel, sz) ∈ (runCase3 env ty osError freshJob).destFiles := by
  unfold runCase3
  rw [hexc, hclean]
  cases ty with
  | Copy =>
    refine ⟨by simp [epilogue], by simp [epilogue], ?_⟩
    intro e he sz hk
    simpa using walkFold_destFiles_mem _ env.copyOk env.entries (walkAcc0 freshJob)
      hok e he sz hk
  | Move =>
    refine ⟨by simp [epilogue], by simp [epilogue], ?_⟩
    intro e he sz hk
    simpa using walkFold_destFiles_mem _ env.copyOk env.entries (walkAcc0 freshJob)
      hok e he sz hk

/-- Environment for the C1 witness: a subdirectory containing one 3-byte
file; every copy succeeds. -/
def envW1 : Case3Env :=
  { entries := [⟨["sub"], .dirE⟩, ⟨["sub", "f.txt"], .fileE 3⟩]
    copyOk := fun _ => true
    scanAbortAt := none
    excAt := none
    cleanupExc := none }

theorem runCase3_completed_mirror_witness :
    (runCase3 envW1 JobType.Copy 0 freshJob).job.status = .Completed ∧
    (runCase3 envW1 JobType.Copy 0 freshJob).job.progress = 1 ∧
    ∀ e ∈ envW1.entries, ∀ sz, e.kind = .fileE sz →
      (e.rel, sz) ∈ (runCase3 envW1 JobType.Copy 0 freshJob).destFiles :=
  runCase3_completed_mirror envW1 JobType.Copy 0 rfl rfl
    (by intro e he sz hk; rfl)

/-- Environment for the C1 counterexample: one 7-byte file whose
`CopyFileExW` call fails; no exception is thrown. -/
def envC1 : Case3Env :=
  { entries := [⟨["g.txt"], .fileE 7⟩]
    copyOk := fun _ => false
    scanAbortAt := none
    excAt := none
    cleanupExc := none }

/-- C1 counterexample: the only file's `CopyFileExW` returns FALSE (failure),
yet the walk swallows this (line 246 has no else branch) and the job reaches
terminal status Completed with progress 1.0 while the file is absent from the
destination — so a Completed Strategy C job does NOT guarantee every source
file was mirrored. -/
theorem runCase3_completed_mirror_cex :
    envC1.copyOk ["g.txt"] = false ∧
    (runCase3 envC1 JobType.Copy 0 freshJob).job.status = .Completed ∧
    (runCase3 envC1 JobType.Copy 0 freshJob).job.progress = 1 ∧
    (⟨["g.txt"], EntryKind.fileE 7⟩ : Entry) ∈ envC1.entries ∧
    (["g.txt"], 7) ∉ (runCase3 envC1 JobType.Copy 0 freshJob).destFiles := by
  refine ⟨rfl, by decide, by decide, by decide, by decide⟩

/-! ## C3: the error contract -/

theorem synth_msg_ne (s : String) : ("Win32 Error Code: " ++ s) ≠ "" := by
  intro h
  have h2 : ("Win32 Error Code: " ++ s).data = ([] : List Char) := by rw [h]
  rw [String.data_append] at h2
  simp at h2

theorem epilogue_false_errorMessage_ne (osError : Nat) (j : JobRec) :
    (epilogue false osError j).errorMessage ≠ "" := by
  by_cases h : j.errorMessage = ""
  · simp only [epilogue, Bool.false_eq_true, if_false, h, if_true]
    exact synth_msg_ne (Nat.repr osError)
  · simp only [epilogue, Bool.false_eq_true, if_false, h, if_false]
    exact h

/-- C3 (amended): a job fails exactly when its top-level transfer primitive
fails (CASE 1's move, CASE 2's copy/move) or an exception is thrown inside
the CASE 3 try block (tree walk or move cleanup); on failure the terminal
status is Failed with a non-empty descriptive errorMessage (synthesized from
the underlying OS error code when no message was already set), and when no
such failure occurs the job terminates Completed with errorMessage still
empty.  A per-file `CopyFileExW` failure inside the recursive walk is
swallowed (line 246 has no else branch) and does NOT fail the job. -/
theorem runClaimedJob_error_contract (env : ExecEnv) (ty : JobType) :
    (execFails env ty = true →
      (runClaimedJob env ty freshJob).status = .Failed ∧
      (runClaimedJob env ty freshJob).errorMessage ≠ "") ∧
    (execFails env ty = false →
      (runClaimedJob env ty freshJob).status = .Completed ∧
      (runClaimedJob env ty freshJob).errorMessage = "") := by
  unfold runClaimedJob execFails
  by_cases h1 : env.isFolder && decide (ty = JobType.Move) && env.sameDrive
  · simp only [h1, if_true]
    cases hok : env.primOk
    · refine ⟨fun _ => ⟨by simp [epilogue], epilogue_false_errorMessage_ne _ _⟩,
        fun hcon => ?_⟩
      simp at hcon
    · refine ⟨fun hcon => by simp at hcon, fun _ => ⟨by simp [epilogue], ?_⟩⟩
      simp [epilogue, freshJob]
  · simp only [h1, if_false]
    by_cases h2 : !env.isFolder
    · simp only [h2, if_true]
      cases hok : env.primOk
      · refine ⟨fun _ => ⟨by simp [epilogue], epilogue_false_errorMessage_ne _ _⟩,
          fun hcon => ?_⟩
        simp at hcon
      · refine ⟨fun hcon => by simp at hcon, fun _ => ⟨by simp [epilogue], ?_⟩⟩
        simp [epilogue, freshJob]
    · simp only [h2, if_false]
      unfold runCase3
      cases hexc : env.c3.excAt with
      | some km =>
        refine ⟨fun _ => ⟨by simp [epilogue], epilogue_false_errorMessage_ne _ _⟩,
          fun hcon => by simp at hcon⟩
      | none =>
        have hmsg : ∀ es, (walkFold (GetDirectorySize env.c3.entries env.c3.scanAbortAt)
            env.c3.copyOk (walkAcc0 freshJob) es).job.errorMessage = "" := by
          intro es
          rw [walkFold_errorMessage]
          rfl
        cases ty with
        | Copy =>
          refine ⟨fun hcon => by simp at hcon, fun _ => ⟨by simp [epilogue], ?_⟩⟩
          simp [epilogue, hmsg]
        | Move =>
          cases hcl : env.c3.cleanupExc with
          | some msg =>
            refine ⟨fun _ => ⟨by simp [epilogue],
              epilogue_false_errorMessage_ne _ _⟩, fun hcon => by simp at hcon⟩
          | none =>
            refine ⟨fun hcon => by simp at hcon, fun _ => ⟨by simp [epilogue], ?_⟩⟩
            simp [epilogue, hmsg]

/-- Environment for the C3 witness: a single-file copy whose primitive
fails. -/
def envW3 : ExecEnv :=
  { isFolder := false
    sameDrive := true
    primOk := false
    c3 := { entries := [], copyOk := fun _ => true, scanAbortAt := none,
            excAt := none, cleanupExc := none }
    osError := 5 }

theorem runClaimedJob_error_contract_witness :
    execFails envW3 JobType.Copy = true ∧
    (runClaimedJob envW3 JobType.Copy freshJob).status = .Failed ∧
    (runClaimedJob envW3 JobType.Copy freshJob).errorMessage ≠ "" :=
  ⟨rfl, (runClaimedJob_error_contract envW3 JobType.Copy).1 rfl⟩

/-- Environment for the C3 counterexample: a directory copy (CASE 3) whose
only file fails to copy; no exception is thrown. -/
def envC3 : ExecEnv :=
  { isFolder := true
    sameDrive := true
    primOk := true
    c3 := { entries := [⟨["f.txt"], .fileE 4⟩], copyOk := fun _ => false,
            scanAbortAt := none, excAt := none, cleanupExc := none }
    osError := 5 }

/-- C3 counterexample: the copy primitive for "f.txt" fails during the job's
execution, yet the job terminates Completed with an empty errorMessage — a
transfer-primitive failure that does NOT result in terminal status Failed,
contradicting the claim. -/
theorem runClaimedJob_error_contract_cex :
    envC3.c3.copyOk ["f.txt"] = false ∧
    (runClaimedJob envC3 JobType.Copy freshJob).status = .Completed ∧
    (runClaimedJob envC3 JobType.Copy freshJob).errorMessage = "" := by
  refine ⟨rfl, by decide, by decide⟩

/-! ## The queue / worker transition system

The remaining claims concern the interleaving of the producer operations
(`QueueJob`, `StartQueue`, `PauseQueue`, `ResumeQueue`, `RemoveJob`) with the
worker loop (lines 160-277).  The state records the arena of jobs ever
created (`shared_ptr` targets, indexed by creation order), the queue of
arena indices still in `m_queue` (a removed job leaves the queue but its
record survives — the worker may still hold it), the `m_running`/`m_paused`
flags, and the worker's control point.  Each transition is one guarded
source statement block: the locked claim scan, one strategy primitive, one
tree-walk iteration together with its preceding pause poll (line 237), one
status write, or the terminal epilogue.  Quantities the queue-level claims
do not track (paths, byte counters, progress) are abstracted: the strategy
choice and the number of entries the iterator will yield are nondeterministic
parameters of the claim step, so every theorem below holds for all of
them. -/

/-- The queue-visible fields of one job: status and operation. -/
structure GJob where
  status : JobStatus
  type : JobType
  deriving DecidableEq, Repr

/-- Placeholder for out-of-range arena lookups; its terminal status is never
an active status, so out-of-range lookups never count as Pending/Copying/
Calculating/Paused. -/
def defaultJob : GJob := ⟨.Failed, .Copy⟩

/-- The worker thread's control point.
* `idle`            — top of the while loop (line 163);
* `claimed j`       — the locked scan picked job `j` (line 181), status not
                      yet written;
* `runA j`          — CASE 1 about to run its move primitive (line 207);
* `runB j`          — CASE 2 about to run its primitive (lines 212-221);
* `calcEnter j n`   — CASE 3 chosen, status Copying written (line 186), about
                      to write Calculating (line 226); the iterator will
                      yield `n` entries;
* `scanning j n`    — status Calculating, `GetDirectorySize` running;
* `walking j n`     — status written back to Copying (line 232), `n` entries
                      remain to process;
* `cleanup j`       — move cleanup (lines 255-256), status Calculating;
* `finishing j ok`  — about to run the epilogue (lines 265-275). -/
inductive WPhase where
  | idle
  | claimed (j : Nat)
  | runA (j : Nat)
  | runB (j : Nat)
  | calcEnter (j : Nat) (n : Nat)
  | scanning (j : Nat) (n : Nat)
  | walking (j : Nat) (n : Nat)
  | cleanup (j : Nat)
  | finishing (j : Nat) (ok : Bool)
  deriving DecidableEq, Repr

/-- The whole `TransferManager` state. -/
structure GState where
  jobs : List GJob
  queue : List Nat
  running : Bool
  paused : Bool
  phase : WPhase
  deriving DecidableEq, Repr

/-- Update the arena entry at index `i` (identity when out of range). -/
def modifyJob : List GJob → Nat → (GJob → GJob) → List GJob
  | [], _, _ => []
  | a :: as, 0, f => f a :: as
  | a :: as, i + 1, f => a :: modifyJob as i f

/-- Indexed map over the arena, indices starting at `i`. -/
def mapJobsFrom (f : Nat → GJob → GJob) : Nat → List GJob → List GJob
  | _, [] => []
  | i, a :: as => f i a :: mapJobsFrom f (i + 1) as

/-- Indexed map over the arena. -/
def mapJobs (f : Nat → GJob → GJob) (l : List GJob) : List GJob :=
  mapJobsFrom f 0 l

/-- The status of arena entry `i`. -/
def jobStatusIn (jobs : List GJob) (i : Nat) : JobStatus :=
  (jobs.getD i defaultJob).status

/-- The status of arena entry `i` in state `s`. -/
def statusAt (s : GState) (i : Nat) : JobStatus := jobStatusIn s.jobs i

/-- The operation of arena entry `i` in state `s`. -/
def typeAt (s : GState) (i : Nat) : JobType := (s.jobs.getD i defaultJob).type

/-- Write status `st` into arena entry `j`. -/
def setStat (s : GState) (j : Nat) (st : JobStatus) : List GJob :=
  modifyJob s.jobs j (fun g => { g with status := st })

/-- `QueueJob` (lines 93-108): append a job with status Pending (line 106) to
the queue (line 107).  (The enqueue-time directory merge of lines 99-102 only
computes the stored destination path, which the queue-level claims do not
track.) -/
def queueJobF (ty : JobType) (s : GState) : GState :=
  { s with jobs := s.jobs ++ [⟨.Pending, ty⟩], queue := s.queue ++ [s.jobs.length] }

/-- `StartQueue` (line 113): `if (!m_running) m_running = true`. -/
def startQueueF (s : GState) : GState := { s with running := true }

/-- The per-member update `PauseQueue` applies while iterating `m_queue`
(lines 122-124): a Copying job becomes Paused, everything else is left
alone. -/
def pauseMark (queue : List Nat) (i : Nat) (g : GJob) : GJob :=
  if i ∈ queue ∧ g.status = .Copying then { g with status := .Paused } else g

/-- `PauseQueue` (lines 119-125). -/
def pauseQueueF (s : GState) : GState :=
  { s with paused := true, jobs := mapJobs (pauseMark s.queue) s.jobs }

/-- The per-member update `ResumeQueue` applies (lines 133-135). -/
def resumeMark (queue : List Nat) (i : Nat) (g : GJob) : GJob :=
  if i ∈ queue ∧ g.status = .Paused then { g with status := .Copying } else g

/-- `ResumeQueue` (lines 130-136). -/
def resumeQueueF (s : GState) : GState :=
  { s with paused := false, jobs := mapJobs (resumeMark s.queue) s.jobs }

/-- `RemoveJob` (lines 143-150): no-op for an out-of-range index (a negative
C++ `int` index is also out of range) or when the job at that position is
Copying (line 147); otherwise the queue entry is excised (line 148). -/
def removeJobF (s : GState) (i : Nat) : GState :=
  match s.queue.get? i with
  | none => s
  | some jid =>
    if jobStatusIn s.jobs jid = .Copying then s
    else { s with queue := s.queue.eraseIdx i }

/-- The locked scan of lines 170-176: the first queue member whose status is
Pending, in insertion order. -/
def firstPendingIdx (jobs : List GJob) : List Nat → Option Nat
  | [] => none
  | jid :: rest =>
    if jobStatusIn jobs jid = .Pending then some jid
    else firstPendingIdx jobs rest

/-- Transition labels: producer calls, and one label per worker statement
block.  `walkEntry j` is the step that copies/mirrors the next entry of job
`j`'s tree walk (lines 239-250) after its pause poll (line 237) passed. -/
inductive GLabel where
  | enqueue (ty : JobType)
  | start
  | pause
  | resume
  | remove (i : Nat)
  | claim (j : Nat)
  | noPending
  | beginA (j : Nat)
  | beginB (j : Nat)
  | beginC (j : Nat) (n : Nat)
  | calcStart (j : Nat)
  | scanDone (j : Nat)
  | walkEntry (j : Nat)
  | walkExc (j : Nat)
  | walkDone (j : Nat)
  | cleanupDone (j : Nat)
  | cleanupExc (j : Nat)
  | primA (j : Nat) (ok : Bool)
  | primB (j : Nat) (ok : Bool)
  | finish (j : Nat) (ok : Bool)
  deriving DecidableEq, Repr

/-- One transition of the system.  Producer calls are always enabled (the
mutex serializes them against the worker's locked scan).  Worker steps are
guarded by the phase; the strategy selection at `claimed` is nondeterministic
(it stands for the filesystem tests of lines 192-204), as are the primitive
outcomes and the entry count `n`. -/
inductive GStep : GState → GLabel → GState → Prop where
  | prodEnqueue (s : GState) (ty : JobType) :
      GStep s (.enqueue ty) (queueJobF ty s)
  | prodStart (s : GState) :
      GStep s .start (startQueueF s)
  | prodPause (s : GState) :
      GStep s .pause (pauseQueueF s)
  | prodResume (s : GState) :
      GStep s .resume (resumeQueueF s)
  | prodRemove (s : GState) (i : Nat) :
      GStep s (.remove i) (removeJobF s i)
  | wClaim (s : GState) (j : Nat) :
      s.phase = .idle → s.running = true →
      firstPendingIdx s.jobs s.queue = some j →
      GStep s (.claim j) { s with phase := .claimed j }
  | wNoPending (s : GState) :
      s.phase = .idle → s.running = true →
      firstPendingIdx s.jobs s.queue = none →
      GStep s .noPending { s with running := false }
  | wBeginA (s : GState) (j : Nat) :
      s.phase = .claimed j →
      GStep s (.beginA j) { s with jobs := setStat s j .Copying, phase := .runA j }
  | wBeginB (s : GState) (j : Nat) :
      s.phase = .claimed j →
      GStep s (.beginB j) { s with jobs := setStat s j .Copying, phase := .runB j }
  | wBeginC (s : GState) (j n : Nat) :
      s.phase = .claimed j →
      GStep s (.beginC j n)
        { s with jobs := setStat s j .Copying, phase := .calcEnter j n }
  | wCalcStart (s : GState) (j n : Nat) :
      s.phase = .calcEnter j n →
      GStep s (.calcStart j)
        { s with jobs := setStat s j .Calculating, phase := .scanning j n }
  | wScanDone (s : GState) (j n : Nat) :
      s.phase = .scanning j n →
      GStep s (.scanDone j)
        { s with jobs := setStat s j .Copying, phase := .walking j n }
  | wWalkEntry (s : GState) (j n : Nat) :
      s.phase = .walking j (n + 1) →
      statusAt s j ≠ .Paused →
      GStep s (.walkEntry j) { s with phase := .walking j n }
  | wWalkExc (s : GState) (j n : Nat) :
      s.phase = .walking j n →
      GStep s (.walkExc j) { s with phase := .finishing j false }
  | wWalkDoneCopy (s : GState) (j : Nat) :
      s.phase = .walking j 0 → typeAt s j = .Copy →
      GStep s (.walkDone j) { s with phase := .finishing j true }
  | wWalkDoneMove (s : GState) (j : Nat) :
      s.phase = .walking j 0 → typeAt s j = .Move →
      GStep s (.walkDone j)
        { s with jobs := setStat s j .Calculating, phase := .cleanup j }
  | wCleanupDone (s : GState) (j : Nat) :
      s.phase = .cleanup j →
      GStep s (.cleanupDone j) { s with phase := .finishing j true }
  | wCleanupExc (s : GState) (j : Nat) :
      s.phase = .cleanup j →
      GStep s (.cleanupExc j) { s with phase := .finishing j false }
  | wPrimA (s : GState) (j : Nat) (ok : Bool) :
      s.phase = .runA j →
      GStep s (.primA j ok) { s with phase := .finishing j ok }
  | wPrimB (s : GState) (j : Nat) (ok : Bool) :
      s.phase = .runB j →
      GStep s (.primB j ok) { s with phase := .finishing j ok }
  | wFinish (s : GState) (j : Nat) (ok : Bool) :
      s.phase = .finishing j ok →
      GStep s (.finish j ok)
        { s with jobs := setStat s j (if ok then .Completed else .Failed),
                 phase := .idle }

/-- The initial state: empty queue, flags clear, worker idle (constructor,
lines 73-75 and the field initializers of `TransferManager.h`). -/
def initState : GState := ⟨[], [], false, false, .idle⟩

/-- Some transition with some label. -/
def StepAny (s s' : GState) : Prop := ∃ l, GStep s l s'

/-- Reachability from the initial state. -/
def Reach (s : GState) : Prop := Relation.ReflTransGen StepAny initState s

/-! ## Characterization lemmas for the state operations -/

theorem modifyJob_getD (f : GJob → GJob) :
    ∀ (l : List GJob) (i k : Nat),
    (modifyJob l i f).getD k defaultJob =
      if k = i ∧ i < l.length then f (l.getD k defaultJob)
      else l.getD k defaultJob := by
  intro l
  induction l with
  | nil => intro i k; simp [modifyJob]
  | cons a as ih =>
    intro i k
    cases i with
    | zero =>
      cases k with
      | zero => simp [modifyJob]
      | succ k => simp [modifyJob]
    | succ i =>
      cases k with
      | zero => simp [modifyJob]
      | succ k =>
        have hcond : ((k + 1 : Nat) = i + 1 ∧ i + 1 < (a :: as).length) ↔
            (k = i ∧ i < as.length) := by
          simp only [List.length_cons]
          omega
        by_cases hc : k = i ∧ i < as.length
        · rw [if_pos (hcond.mpr hc)]
          simp only [modifyJob, List.getD_cons_succ]
          rw [ih i k, if_pos hc]
        · rw [if_neg (fun hcc => hc (hcond.mp hcc))]
          simp only [modifyJob, List.getD_cons_succ]
          rw [ih i k, if_neg hc]

theorem mapJobsFrom_getD (f : Nat → GJob → GJob) :
    ∀ (l : List GJob) (i k : Nat),
    (mapJobsFrom f i l).getD k defaultJob =
      if k < l.length then f (i + k) (l.getD k defaultJob) else defaultJob := by
  intro l
  induction l with
  | nil => intro i k; simp [mapJobsFrom]
  | cons a as ih =>
    intro i k
    cases k with
    | zero => simp [mapJobsFrom]
    | succ k =>
      simp only [mapJobsFrom, List.getD_cons_succ, List.length_cons]
      rw [ih (i + 1) k]
      have harith : i + 1 + k = i + (k + 1) := by omega
      by_cases hc : k < as.length
      · rw [if_pos hc, if_pos (by omega), harith]
      · rw [if_neg hc, if_neg (by omega)]

theorem getD_append_single (l : List GJob) (a : GJob) :
    ∀ i, (l ++ [a]).getD i defaultJob =
      if i = l.length then a else l.getD i defaultJob := by
  induction l with
  | nil =>
    intro i
    cases i with
    | zero => simp
    | succ i => simp [List.getD]
  | cons b bs ih =>
    intro i
    cases i with
    | zero => simp
    | succ i =>
      simp only [List.cons_append, List.getD_cons_succ, List.length_cons]
      rw [ih i]
      by_cases hc : i = bs.length
      · rw [if_pos hc, if_pos (by omega)]
      · rw [if_neg hc, if_neg (by omega)]

theorem statusAt_oob (s : GState) (i : Nat) (h : s.jobs.length ≤ i) :
    statusAt s i = .Failed := by
  unfold statusAt jobStatusIn
  rw [List.getD_eq_default _ _ h]
  rfl

theorem statusAt_lt_of_ne_failed (s : GState) (i : Nat)
    (h : statusAt s i ≠ .Failed) : i < s.jobs.length := by
  by_contra hc
  exact h (statusAt_oob s i (by omega))

theorem statusAt_queueJobF (ty : JobType) (s : GState) (i : Nat) :
    statusAt (queueJobF ty s) i =
      if i = s.jobs.length then .Pending else statusAt s i := by
  unfold statusAt jobStatusIn queueJobF
  simp only
  rw [getD_append_single]
  by_cases hc : i = s.jobs.length
  · rw [if_pos hc, if_pos hc]
  · rw [if_neg hc, if_neg hc]

theorem statusAt_pauseQueueF (s : GState) (i : Nat) :
    statusAt (pauseQueueF s) i =
      if i ∈ s.queue ∧ statusAt s i = .Copying then .Paused else statusAt s i := by
  unfold statusAt jobStatusIn pauseQueueF mapJobs
  simp only
  rw [mapJobsFrom_getD]
  by_cases hlen : i < s.jobs.length
  · rw [if_pos hlen]
    unfold pauseMark
    simp only [Nat.zero_add]
    by_cases hc : i ∈ s.queue ∧ (s.jobs.getD i defaultJob).status = .Copying
    · rw [if_pos hc, if_pos hc]
    · rw [if_neg hc, if_neg hc]
  · rw [if_neg hlen]
    rw [List.getD_eq_default _ _ (by omega : s.jobs.length ≤ i)]
    simp [defaultJob]

theorem statusAt_resumeQueueF (s : GState) (i : Nat) :
    statusAt (resumeQueueF s) i =
      if i ∈ s.queue ∧ statusAt s i = .Paused then .Copying else statusAt s i := by
  unfold statusAt jobStatusIn resumeQueueF mapJobs
  simp only
  rw [mapJobsFrom_getD]
  by_cases hlen : i < s.jobs.length
  · rw [if_pos hlen]
    unfold resumeMark
    simp only [Nat.zero_add]
    by_cases hc : i ∈ s.queue ∧ (s.jobs.getD i defaultJob).status = .Paused
    · rw [if_pos hc, if_pos hc]
    · rw [if_neg hc, if_neg hc]
  · rw [if_neg hlen]
    rw [List.getD_eq_default _ _ (by omega : s.jobs.length ≤ i)]
    simp [defaultJob]

theorem jobStatusIn_setStat (s : GState) (j : Nat) (st : JobStatus) (k : Nat) :
    jobStatusIn (setStat s j st) k =
      if k = j ∧ j < s.jobs.length then st else statusAt s k := by
  unfold setStat statusAt jobStatusIn
  rw [modifyJob_getD]
  by_cases hc : k = j ∧ j < s.jobs.length
  · rw [if_pos hc, if_pos hc]
  · rw [if_neg hc, if_neg hc]

theorem removeJobF_jobs (s : GState) (i : Nat) : (removeJobF s i).jobs = s.jobs := by
  unfold removeJobF
  cases s.queue.get? i with
  | none => rfl
  | some jid =>
    by_cases hc : jobStatusIn s.jobs jid = .Copying <;> simp [hc]

theorem removeJobF_phase (s : GState) (i : Nat) : (removeJobF s i).phase = s.phase := by
  unfold removeJobF
  cases s.queue.get? i with
  | none => rfl
  | some jid =>
    by_cases hc : jobStatusIn s.jobs jid = .Copying <;> simp [hc]

theorem firstPendingIdx_pending (jobs : List GJob) :
    ∀ q j, firstPendingIdx jobs q = some j →
      jobStatusIn jobs j = .Pending ∧ j ∈ q := by
  intro q
  induction q with
  | nil => intro j h; exact absurd h (by simp [firstPendingIdx])
  | cons jid rest ih =>
    intro j h
    unfold firstPendingIdx at h
    by_cases hc : jobStatusIn jobs jid = .Pending
    · rw [if_pos hc] at h
      cases h
      exact ⟨hc, List.mem_cons_self _ _⟩
    · rw [if_neg hc] at h
      obtain ⟨h1, h2⟩ := ih j h
      exact ⟨h1, List.mem_cons_of_mem _ h2⟩

theorem firstPendingIdx_first (jobs : List GJob) :
    ∀ q j, firstPendingIdx jobs q = some j →
      ∃ i, q.get? i = some j ∧
        ∀ k, k < i → ∀ jid, q.get? k = some jid → jobStatusIn jobs jid ≠ .Pending := by
  intro q
  induction q with
  | nil => intro j h; exact absurd h (by simp [firstPendingIdx])
  | cons jid rest ih =>
    intro j h
    unfold firstPendingIdx at h
    by_cases hc : jobStatusIn jobs jid = .Pending
    · rw [if_pos hc] at h
      cases h
      exact ⟨0, rfl, fun k hk => by omega⟩
    · rw [if_neg hc] at h
      obtain ⟨i, hi, hmin⟩ := ih j h
      refine ⟨i + 1, hi, ?_⟩
      intro k hk jid' hjid'
      cases k with
      | zero =>
        cases hjid'
        exact hc
      | succ k =>
        exact hmin k (by omega) jid' hjid'

theorem firstPendingIdx_none (jobs : List GJob) :
    ∀ q, firstPendingIdx jobs q = none ↔
      ∀ jid ∈ q, jobStatusIn jobs jid ≠ .Pending := by
  intro q
  induction q with
  | nil => simp [firstPendingIdx]
  | cons jid rest ih =>
    unfold firstPendingIdx
    by_cases hc : jobStatusIn jobs jid = .Pending
    · rw [if_pos hc]
      simp [hc]
    · rw [if_neg hc]
      rw [ih]
      constructor
      · intro h jid' hjid'
        rcases List.mem_cons.mp hjid' with h' | h'
        · rw [h']; exact hc
        · exact h jid' h'
      · intro h jid' hjid'
        exact h jid' (List.mem_cons_of_mem _ hjid')

/-! ## Invariants of the transition system -/

/-- The statuses only the job currently held by the worker can have. -/
def ActiveSt (st : JobStatus) : Prop :=
  st = .Calculating ∨ st = .Copying ∨ st = .Paused

/-- The job the worker currently holds, if any. -/
def activeOf : WPhase → Option Nat
  | .idle => none
  | .claimed j => some j
  | .runA j => some j
  | .runB j => some j
  | .calcEnter j _ => some j
  | .scanning j _ => some j
  | .walking j _ => some j
  | .cleanup j => some j
  | .finishing j _ => some j

/-- Any job with an active status is the worker's current job. -/
def ActiveInv (s : GState) : Prop :=
  ∀ i, ActiveSt (statusAt s i) → activeOf s.phase = some i

/-- The status of the worker's job in each phase. -/
def PhaseInv (s : GState) : Prop :=
  match s.phase with
  | .idle => True
  | .claimed j => statusAt s j = .Pending
  | .runA j => statusAt s j = .Copying ∨ statusAt s j = .Paused
  | .runB j => statusAt s j = .Copying ∨ statusAt s j = .Paused
  | .calcEnter j _ => statusAt s j = .Copying ∨ statusAt s j = .Paused
  | .scanning j _ => statusAt s j = .Calculating
  | .walking j _ => statusAt s j = .Copying ∨ statusAt s j = .Paused
  | .cleanup j => statusAt s j = .Calculating
  | .finishing _ _ => True

/-- The combined reachability invariant. -/
def Inv (s : GState) : Prop := ActiveInv s ∧ PhaseInv s

theorem activeInv_congr (s s' : GState) (hph : s'.phase = s.phase)
    (hst : ∀ j, statusAt s' j = statusAt s j) (ha : ActiveInv s) :
    ActiveInv s' := by
  intro i hi
  rw [hst i] at hi
  rw [hph]
  exact ha i hi

theorem phaseInv_congr (s s' : GState) (hph : s'.phase = s.phase)
    (hst : ∀ j, statusAt s' j = statusAt s j) (hp : PhaseInv s) : PhaseInv s' := by
  unfold PhaseInv at hp ⊢
  rw [hph]
  cases hps : s.phase <;> rw [hps] at hp <;> simp only [hst] <;> exact hp

theorem phaseInv_of_status_pres (s s' : GState) (hph : s'.phase = s.phase)
    (hPend : ∀ j, statusAt s j = .Pending → statusAt s' j = .Pending)
    (hCP : ∀ j, statusAt s j = .Copying ∨ statusAt s j = .Paused →
      statusAt s' j = .Copying ∨ statusAt s' j = .Paused)
    (hCalc : ∀ j, statusAt s j = .Calculating → statusAt s' j = .Calculating)
    (hp : PhaseInv s) : PhaseInv s' := by
  unfold PhaseInv at hp ⊢
  rw [hph]
  cases hps : s.phase <;> rw [hps] at hp
  · trivial
  · exact hPend _ hp
  · exact hCP _ hp
  · exact hCP _ hp
  · exact hCP _ hp
  · exact hCalc _ hp
  · exact hCP _ hp
  · exact hCalc _ hp
  · trivial

theorem statusAt_queueJobF_pres (ty : JobType) (s : GState) (j : Nat)
    (st : JobStatus) (hst : st ≠ .Failed) (hj : statusAt s j = st) :
    statusAt (queueJobF ty s) j = st := by
  rw [statusAt_queueJobF]
  rw [if_neg ?_]
  · exact hj
  · intro hc
    rw [hc] at hj
    rw [statusAt_oob s _ (Nat.le_refl _)] at hj
    exact hst hj.symm

theorem activeInv_setStat (s : GState) (j : Nat) (st : JobStatus) (ph' : WPhase)
    (hact : activeOf s.phase = some j) (hact' : activeOf ph' = some j)
    (ha : ActiveInv s) :
    ActiveInv { s with jobs := setStat s j st, phase := ph' } := by
  intro i hi
  by_cases hc : i = j
  · rw [hact', hc]
  · have hpres : statusAt { s with jobs := setStat s j st, phase := ph' } i =
        statusAt s i := by
      show jobStatusIn (setStat s j st) i = statusAt s i
      rw [jobStatusIn_setStat, if_neg (fun hcc => hc hcc.1)]
    rw [hpres] at hi
    have h2 := ha i hi
    rw [hact] at h2
    exact absurd (Option.some.inj h2) (fun h3 => hc h3.symm)

theorem activeInv_rephase (s : GState) (j : Nat) (ph' : WPhase)
    (hact : activeOf s.phase = some j) (hact' : activeOf ph' = some j)
    (ha : ActiveInv s) : ActiveInv { s with phase := ph' } := by
  intro i hi
  have h2 := ha i hi
  rw [hact] at h2
  rw [hact']
  exact h2

theorem activeInv_from_idle (s : GState) (ph' : WPhase) (hidle : s.phase = .idle)
    (ha : ActiveInv s) : ActiveInv { s with phase := ph' } := by
  intro i hi
  have h2 := ha i hi
  rw [hidle] at h2
  exact absurd h2 (by simp [activeOf])

/-- Every transition preserves the combined invariant. -/
theorem step_inv {s s' : GState} {l : GLabel} (h : GStep s l s') (hinv : Inv s) :
    Inv s' := by
  obtain ⟨ha, hp⟩ := hinv
  cases h with
  | prodEnqueue ty =>
    constructor
    · intro i hi
      rw [statusAt_queueJobF] at hi
      by_cases hc : i = s.jobs.length
      · rw [if_pos hc] at hi
        rcases hi with h1 | h1 | h1 <;> exact absurd h1 (by simp)
      · rw [if_neg hc] at hi
        exact ha i hi
    · refine phaseInv_of_status_pres s _ rfl ?_ ?_ ?_ hp
      · intro j hj
        exact statusAt_queueJobF_pres ty s j _ (by simp) hj
      · intro j hj
        rcases hj with hj | hj
        · exact Or.inl (statusAt_queueJobF_pres ty s j _ (by simp) hj)
        · exact Or.inr (statusAt_queueJobF_pres ty s j _ (by simp) hj)
      · intro j hj
        exact statusAt_queueJobF_pres ty s j _ (by simp) hj
  | prodStart =>
    exact ⟨activeInv_congr s _ rfl (fun _ => rfl) ha,
      phaseInv_congr s _ rfl (fun _ => rfl) hp⟩
  | prodPause =>
    constructor
    · intro i hi
      rw [statusAt_pauseQueueF] at hi
      by_cases hc : i ∈ s.queue ∧ statusAt s i = .Copying
      · exact ha i (Or.inr (Or.inl hc.2))
      · rw [if_neg hc] at hi
        exact ha i hi
    · refine phaseInv_of_status_pres s _ rfl ?_ ?_ ?_ hp
      · intro j hj
        rw [statusAt_pauseQueueF]
        simp [hj]
      · intro j hj
        rcases hj with hj | hj
        · rw [statusAt_pauseQueueF]
          by_cases hm : j ∈ s.queue
          · simp [hj, hm]
          · simp [hj, hm]
        · rw [statusAt_pauseQueueF]
          simp [hj]
      · intro j hj
        rw [statusAt_pauseQueueF]
        simp [hj]
  | prodResume =>
    constructor
    · intro i hi
      rw [statusAt_resumeQueueF] at hi
      by_cases hc : i ∈ s.queue ∧ statusAt s i = .Paused
      · exact ha i (Or.inr (Or.inr hc.2))
      · rw [if_neg hc] at hi
        exact ha i hi
    · refine phaseInv_of_status_pres s _ rfl ?_ ?_ ?_ hp
      · intro j hj
        rw [statusAt_resumeQueueF]
        simp [hj]
      · intro j hj
        rcases hj with hj | hj
        · rw [statusAt_resumeQueueF]
          simp [hj]
        · rw [statusAt_resumeQueueF]
          by_cases hm : j ∈ s.queue
          · simp [hj, hm]
          · simp [hj, hm]
      · intro j hj
        rw [statusAt_resumeQueueF]
        simp [hj]
  | prodRemove i =>
    have hst : ∀ j, statusAt (removeJobF s i) j = statusAt s j := by
      intro j
      unfold statusAt
      rw [removeJobF_jobs]
    exact ⟨activeInv_congr s _ (removeJobF_phase s i) hst ha,
      phaseInv_congr s _ (removeJobF_phase s i) hst hp⟩
  | wClaim j hidle hrun hfp =>
    constructor
    · exact activeInv_from_idle s _ hidle ha
    · show statusAt { s with phase := WPhase.claimed j } j = .Pending
      show jobStatusIn s.jobs j = .Pending
      exact (firstPendingIdx_pending s.jobs s.queue j hfp).1
  | wNoPending hidle hrun hfp =>
    constructor
    · exact activeInv_congr s _ rfl (fun _ => rfl) ha
    · exact phaseInv_congr s _ rfl (fun _ => rfl) hp
  | wBeginA j hph =>
    unfold PhaseInv at hp
    rw [hph] at hp
    have hjlen : j < s.jobs.length :=
      statusAt_lt_of_ne_failed s j (by rw [hp]; simp)
    constructor
    · exact activeInv_setStat s j .Copying _ (by rw [hph]; rfl) rfl ha
    · show statusAt _ j = JobStatus.Copying ∨ statusAt _ j = JobStatus.Paused
      left
      show jobStatusIn (setStat s j .Copying) j = .Copying
      rw [jobStatusIn_setStat, if_pos ⟨rfl, hjlen⟩]
  | wBeginB j hph =>
    unfold PhaseInv at hp
    rw [hph] at hp
    have hjlen : j < s.jobs.length :=
      statusAt_lt_of_ne_failed s j (by rw [hp]; simp)
    constructor
    · exact activeInv_setStat s j .Copying _ (by rw [hph]; rfl) rfl ha
    · show statusAt _ j = JobStatus.Copying ∨ statusAt _ j = JobStatus.Paused
      left
      show jobStatusIn (setStat s j .Copying) j = .Copying
      rw [jobStatusIn_setStat, if_pos ⟨rfl, hjlen⟩]
  | wBeginC j n hph =>
    unfold PhaseInv at hp
    rw [hph] at hp
    have hjlen : j < s.jobs.length :=
      statusAt_lt_of_ne_failed s j (by rw [hp]; simp)
    constructor
    · exact activeInv_setStat s j .Copying _ (by rw [hph]; rfl) rfl ha
    · show statusAt _ j = JobStatus.Copying ∨ statusAt _ j = JobStatus.Paused
      left
      show jobStatusIn (setStat s j .Copying) j = .Copying
      rw [jobStatusIn_setStat, if_pos ⟨rfl, hjlen⟩]
  | wCalcStart j n hph =>
    unfold PhaseInv at hp
    rw [hph] at hp
    have hjlen : j < s.jobs.length := by
      refine statusAt_lt_of_ne_failed s j ?_
      rcases hp with hp | hp <;> rw [hp] <;> simp
    constructor
    · exact activeInv_setStat s j .Calculating _ (by rw [hph]; rfl) rfl ha
    · show jobStatusIn (setStat s j .Calculating) j = .Calculating
      rw [jobStatusIn_setStat, if_pos ⟨rfl, hjlen⟩]
  | wScanDone j n hph =>
    unfold PhaseInv at hp
    rw [hph] at hp
    have hjlen : j < s.jobs.length :=
      statusAt_lt_of_ne_failed s j (by rw [hp]; simp)
    constructor
    · exact activeInv_setStat s j .Copying _ (by rw [hph]; rfl) rfl ha
    · show statusAt _ j = JobStatus.Copying ∨ statusAt _ j = JobStatus.Paused
      left
      show jobStatusIn (setStat s j .Copying) j = .Copying
      rw [jobStatusIn_setStat, if_pos ⟨rfl, hjlen⟩]
  | wWalkEntry j n hph hnp =>
    unfold PhaseInv at hp
    rw [hph] at hp
    constructor
    · exact activeInv_rephase s j _ (by rw [hph]; rfl) rfl ha
    · exact hp
  | wWalkExc j n hph =>
    constructor
    · exact activeInv_rephase s j _ (by rw [hph]; rfl) rfl ha
    · trivial
  | wWalkDoneCopy j hph hty =>
    constructor
    · exact activeInv_rephase s j _ (by rw [hph]; rfl) rfl ha
    · trivial
  | wWalkDoneMove j hph hty =>
    unfold PhaseInv at hp
    rw [hph] at hp
    have hjlen : j < s.jobs.length := by
      refine statusAt_lt_of_ne_failed s j ?_
      rcases hp with hp | hp <;> rw [hp] <;> simp
    constructor
    · exact activeInv_setStat s j .Calculating _ (by rw [hph]; rfl) rfl ha
    · show jobStatusIn (setStat s j .Calculating) j = .Calculating
      rw [jobStatusIn_setStat, if_pos ⟨rfl, hjlen⟩]
  | wCleanupDone j hph =>
    constructor
    · exact activeInv_rephase s j _ (by rw [hph]; rfl) rfl ha
    · trivial
  | wCleanupExc j hph =>
    constructor
    · exact activeInv_rephase s j _ (by rw [hph]; rfl) rfl ha
    · trivial
  | wPrimA j ok hph =>
    constructor
    · exact activeInv_rephase s j _ (by rw [hph]; rfl) rfl ha
    · trivial
  | wPrimB j ok hph =>
    constructor
    · exact activeInv_rephase s j _ (by rw [hph]; rfl) rfl ha
    · trivial
  | wFinish j ok hph =>
    constructor
    · intro i hi
      have hchar : statusAt { s with
          jobs := setStat s j (if ok then JobStatus.Completed else JobStatus.Failed),
          phase := WPhase.idle } i =
        if i = j ∧ j < s.jobs.length then (if ok then JobStatus.Completed else JobStatus.Failed)
        else statusAt s i := jobStatusIn_setStat s j _ i
      rw [hchar] at hi
      by_cases hc : i = j ∧ j < s.jobs.length
      · rw [if_pos hc] at hi
        cases ok <;> simp at hi <;>
          rcases hi with h1 | h1 | h1 <;> exact absurd h1 (by simp)
      · rw [if_neg hc] at hi
        have h2 := ha i hi
        rw [hph] at h2
        have h3 := Option.some.inj h2
        by_cases hij : i = j
        · have hjlen : j < s.jobs.length := by
            rw [← hij]
            refine statusAt_lt_of_ne_failed s i ?_
            rcases hi with h4 | h4 | h4 <;> rw [h4] <;> simp
          exact absurd ⟨hij, hjlen⟩ hc
        · exact absurd h3 (fun h4 => hij h4.symm)
    · trivial

/-- Every reachable state satisfies the invariant. -/
theorem reach_inv {s : GState} (h : Reach s) : Inv s := by
  unfold Reach at h
  induction h with
  | refl =>
    constructor
    · intro i hi
      rw [statusAt_oob initState i (by simp [initState])] at hi
      rcases hi with h1 | h1 | h1 <;> exact absurd h1 (by simp)
    · trivial
  | tail _ hstep ih =>
    obtain ⟨l, hl⟩ := hstep
    exact step_inv hl ih

/-! ## Concrete trace states used by witnesses and counterexamples -/

/-- After `QueueJob(src, dst, Copy)` on the fresh manager. -/
def sA : GState := queueJobF .Copy initState

/-- After `StartQueue()`. -/
def sB : GState := startQueueF sA

/-- After the worker's locked scan claimed job 0. -/
def sC : GState := { sB with phase := .claimed 0 }

/-- After the worker set job 0 to Copying and selected CASE 1. -/
def sD : GState := { sC with jobs := setStat sC 0 .Copying, phase := .runA 0 }

/-- After the worker set job 0 to Copying and selected CASE 3 (2 entries). -/
def sE : GState := { sC with jobs := setStat sC 0 .Copying, phase := .calcEnter 0 2 }

/-- After the worker set job 0 to Calculating (line 226): the size scan is
about to run. -/
def sF : GState := { sE with jobs := setStat sE 0 .Calculating, phase := .scanning 0 2 }

theorem reach_sC : Reach sC :=
  Relation.ReflTransGen.tail
    (Relation.ReflTransGen.tail
      (Relation.ReflTransGen.tail Relation.ReflTransGen.refl
        ⟨.enqueue .Copy, GStep.prodEnqueue initState .Copy⟩)
      ⟨.start, GStep.prodStart sA⟩)
    ⟨.claim 0, GStep.wClaim sB 0 rfl rfl (by decide)⟩

theorem reach_sD : Reach sD :=
  Relation.ReflTransGen.tail reach_sC ⟨.beginA 0, GStep.wBeginA sC 0 rfl⟩

theorem reach_sF : Reach sF :=
  Relation.ReflTransGen.tail
    (Relation.ReflTransGen.tail reach_sC ⟨.beginC 0 2, GStep.wBeginC sC 0 2 rfl⟩)
    ⟨.calcStart 0, GStep.wCalcStart sE 0 2 rfl⟩

/-! ## C2: at most one Copying job -/

/-- C2: at every reachable instant at most one job has status Copying — in
particular at most one job in the queue — so no interleaving of QueueJob,
StartQueue, PauseQueue, ResumeQueue, RemoveJob and worker steps can make a
second job Copying while another is Copying. -/
theorem atMostOneCopying (s : GState) (hs : Reach s) (i k : Nat)
    (hi : statusAt s i = .Copying) (hk : statusAt s k = .Copying) : i = k := by
  obtain ⟨ha, _⟩ := reach_inv hs
  have h1 := ha i (Or.inr (Or.inl hi))
  have h2 := ha k (Or.inr (Or.inl hk))
  rw [h1] at h2
  exact Option.some.inj h2

theorem atMostOneCopying_witness :
    Reach sD ∧ statusAt sD 0 = .Copying ∧ (0 : Nat) = 0 :=
  ⟨reach_sD, by decide, atMostOneCopying sD reach_sD 0 0 (by decide) (by decide)⟩

/-! ## C4: RemoveJob -/

/-- C4 (amended): RemoveJob(index) leaves the state unchanged when the index
is out of range or the job at that queue position has status Copying;
otherwise it excises exactly that queue entry (leaving the job records
untouched) — and this excision happens exactly when the job's status is
anything other than Copying: Pending, Calculating, Paused, Completed or
Failed. -/
theorem removeJob_contract (s : GState) (i : Nat) :
    (s.queue.get? i = none → removeJobF s i = s) ∧
    (∀ jid, s.queue.get? i = some jid → jobStatusIn s.jobs jid = .Copying →
      removeJobF s i = s) ∧
    (∀ jid, s.queue.get? i = some jid → jobStatusIn s.jobs jid ≠ .Copying →
      (removeJobF s i).queue = s.queue.eraseIdx i ∧
      (removeJobF s i).jobs = s.jobs) := by
  refine ⟨?_, ?_, ?_⟩
  · intro h
    unfold removeJobF
    rw [h]
  · intro jid h hst
    unfold removeJobF
    rw [h]
    simp [hst]
  · intro jid h hst
    unfold removeJobF
    rw [h]
    simp [hst]

theorem removeJob_contract_witness :
    sF.queue.get? 0 = some 0 ∧ jobStatusIn sF.jobs 0 ≠ .Copying ∧
    ((removeJobF sF 0).queue = sF.queue.eraseIdx 0 ∧
      (removeJobF sF 0).jobs = sF.jobs) :=
  ⟨by decide, by decide, (removeJob_contract sF 0).2.2 0 (by decide) (by decide)⟩

/-- C4 counterexample: in the reachable state `sF` job 0 is Calculating and
still in the queue (the `RemoveJob` guard at line 147 only tests for
Copying), and `RemoveJob(0)` excises it — excision is NOT restricted to jobs
whose status is Pending, Paused, Completed or Failed. -/
theorem removeJob_calculating_excised_cex :
    Reach sF ∧ statusAt sF 0 = .Calculating ∧ (0 : Nat) ∈ sF.queue ∧
    (removeJobF sF 0).queue = [] :=
  ⟨reach_sF, by decide, by decide, by decide⟩

/-! ## C8: Pause / Resume -/

/-- C8: PauseQueue transitions every queued job whose status is Copying to
Paused and leaves every other queued job's status unchanged; ResumeQueue
transitions every queued job whose status is Paused back to Copying and
leaves every other queued job's status unchanged; no tree-walk entry step is
possible while the claimed job's status is Paused (the poll at line 237);
and once the status is Copying again the walk step is enabled. -/
theorem pauseResume_contract (s : GState) :
    (∀ i ∈ s.queue, statusAt (pauseQueueF s) i =
      if statusAt s i = .Copying then .Paused else statusAt s i) ∧
    (∀ i ∈ s.queue, statusAt (resumeQueueF s) i =
      if statusAt s i = .Paused then .Copying else statusAt s i) ∧
    (∀ s' j, GStep s (.walkEntry j) s' → statusAt s j ≠ .Paused) ∧
    (∀ j n, s.phase = .walking j (n + 1) → statusAt s j = .Copying →
      GStep s (.walkEntry j) { s with phase := .walking j n }) := by
  refine ⟨?_, ?_, ?_, ?_⟩
  · intro i hm
    rw [statusAt_pauseQueueF]
    by_cases hst : statusAt s i = .Copying
    · rw [if_pos ⟨hm, hst⟩, if_pos hst]
    · rw [if_neg (fun hc => hst hc.2), if_neg hst]
  · intro i hm
    rw [statusAt_resumeQueueF]
    by_cases hst : statusAt s i = .Paused
    · rw [if_pos ⟨hm, hst⟩, if_pos hst]
    · rw [if_neg (fun hc => hst hc.2), if_neg hst]
  · intro s' j hstep
    cases hstep with
    | wWalkEntry j n hph hnp => exact hnp
  · intro j n hph hst
    exact GStep.wWalkEntry s j n hph (by rw [hst]; simp)

theorem pauseResume_contract_witness :
    (0 : Nat) ∈ sD.queue ∧
    statusAt (pauseQueueF sD) 0 =
      (if statusAt sD 0 = .Copying then .Paused else statusAt sD 0) :=
  ⟨by decide, (pauseResume_contract sD).1 0 (by decide)⟩

/-! ## C9: FIFO claim and running-flag clearing -/

/-- C9: whenever the worker claims a job j (the transition that then takes j
from Pending to Copying), j is the first Pending job in insertion order — j
is Pending and every queue member at an earlier position is not Pending; and
when the running flag is set and no queued job is Pending, the worker's scan
clears the running flag and claims nothing (phase stays idle, queue and job
records untouched). -/
theorem worker_fifo_contract (s : GState) :
    (∀ s' j, GStep s (.claim j) s' →
      statusAt s j = .Pending ∧
      ∃ i, s.queue.get? i = some j ∧
        ∀ k, k < i → ∀ jid, s.queue.get? k = some jid →
          statusAt s jid ≠ .Pending) ∧
    (∀ s', GStep s .noPending s' →
      s.running = true ∧ (∀ jid ∈ s.queue, statusAt s jid ≠ .Pending) ∧
      s'.running = false ∧ s'.phase = .idle ∧ s'.queue = s.queue ∧
      s'.jobs = s.jobs) := by
  constructor
  · intro s' j hstep
    cases hstep with
    | wClaim j hidle hrun hfp =>
      refine ⟨(firstPendingIdx_pending s.jobs s.queue j hfp).1, ?_⟩
      obtain ⟨i, hi, hmin⟩ := firstPendingIdx_first s.jobs s.queue j hfp
      exact ⟨i, hi, hmin⟩
  · intro s' hstep
    cases hstep with
    | wNoPending hidle hrun hfp =>
      exact ⟨hrun, (firstPendingIdx_none s.jobs s.queue).mp hfp, rfl, hidle, rfl, rfl⟩

theorem worker_fifo_contract_witness :
    statusAt sB 0 = .Pending ∧
    ∃ i, sB.queue.get? i = some 0 ∧
      ∀ k, k < i → ∀ jid, sB.queue.get? k = some jid →
        statusAt sB jid ≠ .Pending :=
  (worker_fifo_contract sB).1 sC 0 (GStep.wClaim sB 0 rfl rfl (by decide))

/-! ## C10: Calculating is not pausable -/

/-- C10: a job whose status is Calculating is never transitioned by
PauseQueue (pausing right after line 226, or during the cleanup phase of
lines 255-256, leaves its status Calculating), and both Calculating phases
proceed to completion regardless of the pause flag: immediately after a
PauseQueue call the size-scan completion step and the cleanup completion
step are still enabled and advance the job. -/
theorem calculating_unpausable (s : GState) :
    (∀ j n, Reach s → s.phase = .scanning j n → statusAt s j = .Calculating) ∧
    (∀ j, Reach s → s.phase = .cleanup j → statusAt s j = .Calculating) ∧
    (∀ j, statusAt s j = .Calculating →
      statusAt (pauseQueueF s) j = .Calculating) ∧
    (∀ j n, s.phase = .scanning j n →
      GStep (pauseQueueF s) (.scanDone j)
        { pauseQueueF s with
            jobs := setStat (pauseQueueF s) j .Copying
            phase := .walking j n }) ∧
    (∀ j, s.phase = .cleanup j →
      GStep (pauseQueueF s) (.cleanupDone j)
        { pauseQueueF s with phase := .finishing j true }) := by
  refine ⟨?_, ?_, ?_, ?_, ?_⟩
  · intro j n hs hph
    obtain ⟨_, hp⟩ := reach_inv hs
    unfold PhaseInv at hp
    rw [hph] at hp
    exact hp
  · intro j hs hph
    obtain ⟨_, hp⟩ := reach_inv hs
    unfold PhaseInv at hp
    rw [hph] at hp
    exact hp
  · intro j hj
    rw [statusAt_pauseQueueF]
    simp [hj]
  · intro j n hph
    exact GStep.wScanDone (pauseQueueF s) j n hph
  · intro j hph
    exact GStep.wCleanupDone (pauseQueueF s) j hph

theorem calculating_unpausable_witness :
    sF.phase = .scanning 0 2 ∧ statusAt sF 0 = .Calculating ∧
    statusAt (pauseQueueF sF) 0 = .Calculating :=
  ⟨rfl, (calculating_unpausable sF).1 0 2 reach_sF rfl,
    (calculating_unpausable sF).2.2.1 0 (by decide)⟩

end SysButler
